import Mathlib

/-!
Verification of the Coworker Force-Time Graph component
(`src/components/CoworkerForceTimeGraph.tsx`).

The TypeScript source is shallowly embedded: pure helper functions become
Lean functions, the derived-state computations (`parsed`, `graph`) become
functions of their inputs, the JavaScript `Map` becomes an insertion-ordered
association list (JS `Map.set` on an existing key keeps its position,
otherwise appends; `Map.values()` iterates in insertion order), and JS
numbers that survive `toNum` are modelled as `Option Int` (absent =
`undefined`).  Canvas positions are modelled as rationals.
-/

namespace CoworkerGraph

/-- A JS number as produced by the unary `+` coercion in `toNum`: the
coercion always yields a number — finite, `NaN`, or `±Infinity`. -/
inductive JSNum where
  | finite (n : Int)
  | nan
  | posInf
  | negInf
deriving DecidableEq

/-- `Number.isFinite`. -/
def JSNum.isFinite : JSNum → Bool
  | .finite _ => true
  | _ => false

/-- Helper `toNum(x)`: `const n = +x; return Number.isFinite(n) ? n : undefined`.
The argument is the already-coerced number `+x`. -/
def toNum (x : JSNum) : Option Int :=
  if x.isFinite then
    match x with
    | .finite n => some n
    | _ => none
  else none

/-- JS `a || b` for a possibly-absent number `a`: `undefined` and `0` are
falsy (`NaN` cannot occur here, every stored number came through `toNum`). -/
def jsOrI (a : Option Int) (b : Int) : Int :=
  match a with
  | none => b
  | some x => if x = 0 then b else x

/-- JS `a || b` for a possibly-absent natural number (used for
`(ext[1] as number) || 30` and `parsed.days || daysInMonth`). -/
def jsOrNat (a : Option Nat) (b : Nat) : Nat :=
  match a with
  | none => b
  | some x => if x = 0 then b else x

/-- JS `a || b` for a possibly-absent string (used for `d.note || ''`):
`undefined` and the empty string are falsy. -/
def jsOrStr (a : Option String) (b : String) : String :=
  match a with
  | none => b
  | some s => if s = "" then b else s

/-- The date components the component reads off a `Date`:
`getFullYear()`, `getMonth()` (0-based) and `getDate()` (day of month). -/
structure JSDate where
  year : Int
  monthIndex : Nat
  day : Nat
deriving DecidableEq

/-- `String.prototype.padStart(2, '0')`: the decimal rendering of a month
number has length at least 1, so at most one `'0'` is prepended. -/
def padStart2 (s : String) : String :=
  if s.length < 2 then "0" ++ s else s

/-- Helper `fmtMonth(d)`: `` `${d.getFullYear()}-${pad2(d.getMonth()+1)}` ``. -/
def fmtMonth (d : JSDate) : String :=
  toString d.year ++ "-" ++ padStart2 (toString (d.monthIndex + 1))

/-- A normalized person record (`NodeRec`).  Numeric `id` is `Option Int`
because `toNum` may yield `undefined` (the TS `!` assertion has no runtime
effect).  `x`,`y`,`vx`,`vy` are the simulation-owned fields. -/
structure NodeRec where
  id : Option Int
  name : String
  role : String
  team : String
  location : String
  email : String
  degree : Int
  x : Option ℚ := none
  y : Option ℚ := none
  vx : Option ℚ := none
  vy : Option ℚ := none
deriving DecidableEq

/-- A normalized interaction event (`EdgeEvent`). -/
structure EdgeEvent where
  event_id : Option Int
  source : Option Int
  target : Option Int
  timestamp : JSDate
  event_type : String
  duration_minutes : Option Int
  project : String
  weight : Option Int
  note : String
deriving DecidableEq

/-- A raw CSV person row after header-keyed parsing: the numeric cell is
modelled by the number its text coerces to under unary `+`. -/
structure RawNode where
  id : JSNum
  name : String
  role : String
  team : String
  location : String
  email : String

/-- A raw CSV event row after header-keyed parsing. -/
structure RawEdge where
  event_id : JSNum
  source : JSNum
  target : JSNum
  timestamp : JSDate
  event_type : String
  duration_minutes : JSNum
  project : String
  weight : JSNum
  note : Option String

/-- Normalization of one person row (the `nodes` mapping inside `parsed`). -/
def normNode (d : RawNode) : NodeRec :=
  { id := toNum d.id
    name := d.name
    role := d.role
    team := d.team
    location := d.location
    email := d.email
    degree := 0 }

/-- Normalization of one event row (the `edgesAll` mapping inside `parsed`). -/
def normEdge (d : RawEdge) : EdgeEvent :=
  { event_id := toNum d.event_id
    source := toNum d.source
    target := toNum d.target
    timestamp := d.timestamp
    event_type := d.event_type
    duration_minutes := toNum d.duration_minutes
    project := d.project
    weight := toNum d.weight
    note := jsOrStr d.note "" }

/-- The month filter inside `parsed`:
`edgesAll.filter((e) => fmtMonth(e.timestamp) === monthKey)`. -/
def monthFiltered (edges : List EdgeEvent) (monthKey : String) : List EdgeEvent :=
  edges.filter (fun e => fmtMonth e.timestamp = monthKey)

/-- The upper end of `d3.extent` over the filtered days:
`undefined` on an empty list, else the maximum. -/
def extentMax (l : List Nat) : Option Nat := l.max?

/-- `Math.max((ext[1] as number) || 30, 30)`. -/
def daysOf (filtered : List EdgeEvent) : Nat :=
  Nat.max (jsOrNat (extentMax (filtered.map (fun e => e.timestamp.day))) 30) 30

/-- The value of the `parsed` memo when both CSV row sets are present. -/
structure Parsed where
  nodes : List NodeRec
  edges : List EdgeEvent
  days : Nat

/-- `parsed` for present row sets: normalize, filter to the month, compute
the day count. -/
def mkParsed (nodesCSV : List RawNode) (edgesCSV : List RawEdge) (monthKey : String) : Parsed :=
  let nodes := nodesCSV.map normNode
  let edgesAll := edgesCSV.map normEdge
  let filtered := monthFiltered edgesAll monthKey
  { nodes := nodes, edges := filtered, days := daysOf filtered }

/-- The active-window filter inside `graph`:
`(accumulate && d <= cutoff) || (!accumulate && d === cutoff)`
where `d = e.timestamp.getDate()`. -/
def activeEdges (edges : List EdgeEvent) (cutoff : Nat) (accumulate : Bool) : List EdgeEvent :=
  edges.filter (fun e =>
    let d := e.timestamp.day
    (accumulate && decide (d ≤ cutoff)) || (!accumulate && decide (d = cutoff)))

/-- JS `<` on two possibly-`undefined` numbers: any comparison with
`undefined` is false. -/
def jsLt : Option Int → Option Int → Bool
  | some a, some b => decide (a < b)
  | _, _ => false

/-- The key type of the link map.  The source builds the string
`` a < b ? `${a}|${b}` : `${b}|${a}` ``; since decimal renderings contain no
`|` and render injectively (and `undefined` renders as a non-numeral), the
string is in bijection with the ordered pair it is built from, which we use
as the key directly. -/
abbrev LKey := Option Int × Option Int

/-- `linkKey(a, b)`: canonicalize so the JS-smaller id comes first. -/
def linkKey (a b : Option Int) : LKey :=
  if jsLt a b then (a, b) else (b, a)

/-- An aggregated link (`LinkAgg`); `source`/`target` keep the orientation
of the first contributing event (ids at this stage, rebound to node
references only at simulation setup). -/
structure LinkAgg where
  source : Option Int
  target : Option Int
  total : Int
  events : List EdgeEvent
deriving DecidableEq

/-- `Map.prototype.get` on an insertion-ordered association list. -/
def mapGet {α β : Type} [DecidableEq α] (m : List (α × β)) (k : α) : Option β :=
  (m.find? (fun p => p.1 = k)).map (fun p => p.2)

/-- `Map.prototype.set`: an existing key keeps its position, a new key is
appended. -/
def mapSet {α β : Type} [DecidableEq α] (m : List (α × β)) (k : α) (v : β) : List (α × β) :=
  if m.any (fun p => p.1 = k) then m.map (fun p => if p.1 = k then (k, v) else p)
  else m ++ [(k, v)]

/-- The link-map key of one event. -/
def keyOf (e : EdgeEvent) : LKey := linkKey e.source e.target

/-- `e.weight || 1`: the contribution of one event to its link total. -/
def contribution (w : Option Int) : Int := jsOrI w 1

/-- One iteration of the aggregation loop:
`const val = linkMap.get(k) || {source, target, total: 0, events: []};`
`val.total += e.weight || 1; val.events.push(e); linkMap.set(k, val)`.
(`val` is an object, always truthy, so `||` is get-or-default.) -/
def insertEvent (m : List (LKey × LinkAgg)) (e : EdgeEvent) : List (LKey × LinkAgg) :=
  let k := keyOf e
  let val := (mapGet m k).getD { source := e.source, target := e.target, total := 0, events := [] }
  mapSet m k { val with total := val.total + contribution e.weight, events := val.events ++ [e] }

/-- `links = Array.from(linkMap.values())` after the aggregation loop. -/
def buildLinks (active : List EdgeEvent) : List LinkAgg :=
  (active.foldl insertEvent []).map (fun p => p.2)

/-- `deg.set(k, (deg.get(k) || 0) + v)`. -/
def bump (m : List (Option Int × Int)) (k : Option Int) (v : Int) : List (Option Int × Int) :=
  mapSet m k (jsOrI (mapGet m k) 0 + v)

/-- The degree map: for every link, credit its full `total` to both
endpoints. -/
def degMap (links : List LinkAgg) : List (Option Int × Int) :=
  links.foldl (fun m l => bump (bump m l.source l.total) l.target l.total) []

/-- `deg.get(n.id) || 0`. -/
def nodeDegree (links : List LinkAgg) (id : Option Int) : Int :=
  jsOrI (mapGet (degMap links) id) 0

/-- `nodesWithDeg = nodes.map((n) => ({...n, degree: deg.get(n.id) || 0}))`. -/
def nodesWithDeg (nodes : List NodeRec) (links : List LinkAgg) : List NodeRec :=
  nodes.map (fun n => { n with degree := nodeDegree links n.id })

/-- The per-window graph (`graph` memo, present case). -/
structure Graph where
  nodes : List NodeRec
  links : List LinkAgg

/-- `graph` for present `parsed`. -/
def graphOf (p : Parsed) (day : Nat) (accumulate : Bool) : Graph :=
  let active := activeEdges p.edges day accumulate
  let links := buildLinks active
  { nodes := nodesWithDeg p.nodes links, links := links }

/-- One playback tick's `setDay` updater:
`if (!parsed) return d; const next = d + 1;`
`if (next > (parsed.days || daysInMonth)) return 1; return next`. -/
def tickDay (parsed : Option Parsed) (daysInMonth : Nat) (d : Nat) : Nat :=
  match parsed with
  | none => d
  | some p =>
    let next := d + 1
    if next > jsOrNat (some p.days) daysInMonth then 1 else next

/-- Squared distance from the pointer to a node's simulated position
(`n.x ?? 0`, `n.y ?? 0`).  The source compares `Math.hypot(dx, dy)` against
a running best; both sides are nonnegative, so comparing squares is
equivalent and keeps the development rational-valued. -/
def dist2 (x y : ℚ) (n : NodeRec) : ℚ :=
  let dx := x - (n.x.getD 0)
  let dy := y - (n.y.getD 0)
  dx * dx + dy * dy

/-- The scan loop of `pickNode`: running best node and best squared
distance, initial best distance 20 (squared: 400), strict improvement. -/
def pickGo (x y : ℚ) : List NodeRec → Option NodeRec → ℚ → Option NodeRec
  | [], best, _ => best
  | n :: rest, best, bestD2 =>
    if dist2 x y n < bestD2 then pickGo x y rest (some n) (dist2 x y n)
    else pickGo x y rest best bestD2

/-- `pickNode(x, y, nodes)`. -/
def pickNode (x y : ℚ) (nodes : List NodeRec) : Option NodeRec :=
  if nodes.isEmpty then none else pickGo x y nodes none 400

/-- `Math.floor(r * n)` for one pseudo-random draw `r`. -/
def drawFloor (r : ℚ) (n : ℕ) : Int := ⌊r * (n : ℚ)⌋

/-- One synthesized demo event (the fields the generator computes before
boxing them into a row object). -/
structure DemoEdge where
  event_id : Int
  source : Int
  target : Int
  day : Int
  hour : Int
  minute : Int
  event_type : String
  duration_minutes : Int
  weight : Int
deriving DecidableEq

/-- The generator's event-type list. -/
def demoTypes : List String :=
  ["meeting", "code_review", "pair_programming", "design_review",
   "async_message", "doc_edit", "presentation"]

/-- Iteration `k` (0-based) of the demo loop.  `rnd` is the seeded LCG
stream, modelled as the sequence of its draws, each in `[0, 1)`; the loop
consumes eight draws per iteration in source order
(source, target, day, hour, minute, type, duration, weight), so iteration
`k` reads draws `8k .. 8k+7`.  `N = 100`. -/
def demoEdge (rnd : ℕ → ℚ) (k : ℕ) : DemoEdge :=
  let a := drawFloor (rnd (8 * k)) 100 + 1
  let b0 := drawFloor (rnd (8 * k + 1)) 100 + 1
  let b := if b0 = a then b0 % 100 + 1 else b0
  let day := 1 + drawFloor (rnd (8 * k + 2)) 30
  let hour := drawFloor (rnd (8 * k + 3)) 24
  let minute := drawFloor (rnd (8 * k + 4)) 60
  let ty := (demoTypes.get? (drawFloor (rnd (8 * k + 5)) 7).toNat).getD ""
  let dur := 15 + drawFloor (rnd (8 * k + 6)) 90
  let w := 1 + drawFloor (rnd (8 * k + 7)) 3
  { event_id := (k : Int) + 1, source := a, target := b, day := day, hour := hour,
    minute := minute, event_type := ty, duration_minutes := dur, weight := w }

/-- The 1200 events `generateDemo` synthesizes. -/
def demoEdges (rnd : ℕ → ℚ) : List DemoEdge :=
  (List.range 1200).map (demoEdge rnd)

/-- A concrete event on a given day of 2025-09 (for the worked examples). -/
def exDay (d : Nat) : EdgeEvent :=
  { event_id := some 1, source := some 1, target := some 2,
    timestamp := ⟨2025, 8, d⟩, event_type := "meeting",
    duration_minutes := some 30, project := "Demo", weight := some 1, note := "" }

/-- Worked example: an event source=3, target=7, weight=2. -/
def ev37 : EdgeEvent := { exDay 1 with source := some 3, target := some 7, weight := some 2 }

/-- Worked example: the reversed orientation, source=7, target=3, weight=5. -/
def ev73 : EdgeEvent := { exDay 1 with source := some 7, target := some 3, weight := some 5 }

/-- Worked example: an event with weight 0. -/
def evW0 : EdgeEvent := { exDay 1 with source := some 3, target := some 7, weight := some 0 }

/-- Worked example: the aggregated link (3, 7, total = 7). -/
def link37 : LinkAgg := { source := some 3, target := some 7, total := 7, events := [] }

/-- Worked example: a simulated node 19 logical pixels from the origin. -/
def nodeAt (q : ℚ) : NodeRec :=
  { id := some 1, name := "User 1", role := "Engineer", team := "Platform",
    location := "Remote", email := "user1@example.com", degree := 0,
    x := some q, y := some 0 }

/-- The per-link share credited to the key `k` by one link: its full
`total` once for the source slot and once for the target slot. -/
def degContrib (k : Option Int) (l : LinkAgg) : Int :=
  (if l.source = k then l.total else 0) + (if l.target = k then l.total else 0)

/-- The summed `e.weight || 1` contributions of the events whose
canonicalized pair key is `k`. -/
def keyTotal (k : LKey) (active : List EdgeEvent) : Int :=
  ((active.filter (fun e => keyOf e = k)).map (fun e => contribution e.weight)).sum

/-! ## Lemmas about the association-list model of `Map` -/

theorem mapGet_cons {α β : Type} [DecidableEq α] (p : α × β) (m : List (α × β)) (k : α) :
    mapGet (p :: m) k = if p.1 = k then some p.2 else mapGet m k := by
  simp only [mapGet, List.find?_cons]
  by_cases h : p.1 = k <;> simp [h]

theorem mapGet_mapSet_self {α β : Type} [DecidableEq α] (m : List (α × β)) (k : α) (v : β) :
    mapGet (mapSet m k v) k = some v := by
  unfold mapSet
  by_cases h : m.any (fun p => p.1 = k) = true
  · rw [if_pos h]
    induction m with
    | nil => simp at h
    | cons hd tl ih =>
      by_cases hk : hd.1 = k
      · simp [mapGet_cons, hk]
      · have ht : tl.any (fun p => p.1 = k) = true := by
          simpa [List.any_cons, hk] using h
        simpa [mapGet_cons, hk] using ih ht
  · rw [if_neg h]
    have hm : m.find? (fun p => decide (p.1 = k)) = none := by
      rw [List.find?_eq_none]
      intro x hx
      simp only [decide_eq_true_eq]
      intro hxk
      exact h (List.any_eq_true.mpr ⟨x, hx, by simpa using hxk⟩)
    simp [mapGet, List.find?_append, hm]

theorem mapGet_mapSet_ne {α β : Type} [DecidableEq α] (m : List (α × β)) (k k' : α) (v : β)
    (hne : k' ≠ k) :
    mapGet (mapSet m k v) k' = mapGet m k' := by
  have hkk : ¬ (k = k') := fun hc => hne hc.symm
  unfold mapSet
  by_cases h : m.any (fun p => p.1 = k) = true
  · rw [if_pos h]
    clear h
    induction m with
    | nil => simp
    | cons hd tl ih =>
      by_cases hk : hd.1 = k
      · have h1 : (if hd.1 = k then (k, v) else hd) = (k, v) := if_pos hk
        have h3 : ¬ (hd.1 = k') := by rw [hk]; exact hkk
        rw [List.map_cons, h1, mapGet_cons, mapGet_cons]
        simp only [h3, if_false]
        simpa [hkk] using ih
      · have h1 : (if hd.1 = k then (k, v) else hd) = hd := if_neg hk
        rw [List.map_cons, h1, mapGet_cons, mapGet_cons]
        by_cases hk' : hd.1 = k'
        · simp [hk']
        · simp only [hk', if_false]
          exact ih
  · rw [if_neg h]
    have hone : List.find? (fun p => decide (p.1 = k')) [(k, v)] = none := by
      simp [List.find?_cons, hkk]
    simp only [mapGet, List.find?_append, hone]
    cases m.find? (fun p => decide (p.1 = k')) <;> simp

theorem mapGet_eq_some_mem {α β : Type} [DecidableEq α] {m : List (α × β)} {k : α} {v : β}
    (h : mapGet m k = some v) : (k, v) ∈ m := by
  simp only [mapGet, Option.map_eq_some'] at h
  obtain ⟨p, hp, hv⟩ := h
  have hmem := List.mem_of_find?_eq_some hp
  have hkey : p.1 = k := by
    have := List.find?_some hp
    simpa using this
  have : p = (k, v) := by
    cases p
    simp only at hkey hv
    simp [hkey, hv]
  exact this ▸ hmem

theorem mapGet_of_mem_nodup {α β : Type} [DecidableEq α] {m : List (α × β)} {k : α} {v : β}
    (hnd : (m.map (fun p => p.1)).Nodup) (hmem : (k, v) ∈ m) : mapGet m k = some v := by
  induction m with
  | nil => simp at hmem
  | cons hd tl ih =>
    simp only [List.map_cons, List.nodup_cons] at hnd
    rcases List.mem_cons.mp hmem with heq | htl
    · rw [← heq]
      simp [mapGet_cons]
    · have hk : k ∈ tl.map (fun p => p.1) :=
        List.mem_map.mpr ⟨(k, v), htl, rfl⟩
      have hne : hd.1 ≠ k := fun hc => hnd.1 (hc ▸ hk)
      simp [mapGet_cons, hne, ih hnd.2 htl]

theorem mapSet_keys_present {α β : Type} [DecidableEq α] (m : List (α × β)) (k : α) (v : β)
    (h : m.any (fun p => p.1 = k) = true) :
    (mapSet m k v).map (fun p => p.1) = m.map (fun p => p.1) := by
  simp only [mapSet, h, if_true, List.map_map]
  refine List.map_congr_left (fun p _ => ?_)
  by_cases hk : p.1 = k <;> simp [hk]

theorem mapSet_keys_absent {α β : Type} [DecidableEq α] (m : List (α × β)) (k : α) (v : β)
    (h : ¬ m.any (fun p => p.1 = k) = true) :
    (mapSet m k v).map (fun p => p.1) = m.map (fun p => p.1) ++ [k] := by
  simp [mapSet, h]

theorem mapSet_keys_nodup {α β : Type} [DecidableEq α] (m : List (α × β)) (k : α) (v : β)
    (hnd : (m.map (fun p => p.1)).Nodup) :
    ((mapSet m k v).map (fun p => p.1)).Nodup := by
  by_cases h : m.any (fun p => p.1 = k) = true
  · rw [mapSet_keys_present m k v h]
    exact hnd
  · rw [mapSet_keys_absent m k v h]
    have hk : k ∉ m.map (fun p => p.1) := by
      intro hc
      obtain ⟨p, hp, hpk⟩ := List.mem_map.mp hc
      exact h (List.any_eq_true.mpr ⟨p, hp, by simp [hpk]⟩)
    simp [List.nodup_append, hnd, hk]

theorem mem_mapSet {α β : Type} [DecidableEq α] {m : List (α × β)} {k : α} {v : β} {p : α × β}
    (hmem : p ∈ mapSet m k v) : p ∈ m ∨ p = (k, v) := by
  unfold mapSet at hmem
  by_cases h : m.any (fun p => p.1 = k) = true
  · rw [if_pos h] at hmem
    obtain ⟨q, hq, hpq⟩ := List.mem_map.mp hmem
    by_cases hk : q.1 = k
    · right
      rw [if_pos hk] at hpq
      exact hpq.symm
    · left
      rw [if_neg hk] at hpq
      exact hpq ▸ hq
  · rw [if_neg h] at hmem
    simpa using hmem

/-! ## Lemmas about link aggregation -/

theorem keyTotal_nil (k : LKey) : keyTotal k [] = 0 := rfl

theorem keyTotal_cons (k : LKey) (e : EdgeEvent) (rest : List EdgeEvent) :
    keyTotal k (e :: rest) =
      (if keyOf e = k then contribution e.weight else 0) + keyTotal k rest := by
  by_cases h : keyOf e = k <;> simp [keyTotal, h]

theorem mapGet_insertEvent_self (m : List (LKey × LinkAgg)) (e : EdgeEvent) :
    (mapGet (insertEvent m e) (keyOf e)).map LinkAgg.total =
      some (((mapGet m (keyOf e)).map LinkAgg.total).getD 0 + contribution e.weight) := by
  simp only [insertEvent]
  rw [mapGet_mapSet_self]
  cases h : mapGet m (keyOf e) <;> simp [h]

theorem mapGet_insertEvent_ne (m : List (LKey × LinkAgg)) (e : EdgeEvent) (k : LKey)
    (h : k ≠ keyOf e) :
    mapGet (insertEvent m e) k = mapGet m k := by
  simp only [insertEvent]
  exact mapGet_mapSet_ne _ _ _ _ h

theorem foldl_insertEvent_total (k : LKey) :
    ∀ (active : List EdgeEvent) (m : List (LKey × LinkAgg)),
      (mapGet (active.foldl insertEvent m) k).map LinkAgg.total =
        ((mapGet m k).map LinkAgg.total).elim
          (if active.any (fun e => keyOf e = k) then some (keyTotal k active) else none)
          (fun t => some (t + keyTotal k active))
  | [], m => by
    cases h : mapGet m k <;> simp [h, keyTotal_nil]
  | e :: rest, m => by
    rw [List.foldl_cons, foldl_insertEvent_total k rest (insertEvent m e)]
    by_cases hk : keyOf e = k
    · subst hk
      rw [mapGet_insertEvent_self]
      cases h : mapGet m (keyOf e) with
      | none =>
        simp [h, keyTotal_cons, List.any_cons]
      | some v =>
        simp [h, keyTotal_cons, add_assoc]
    · rw [mapGet_insertEvent_ne m e k (Ne.symm hk)]
      have h1 : keyTotal k (e :: rest) = keyTotal k rest := by
        rw [keyTotal_cons]
        simp [hk]
      have h2 : (e :: rest).any (fun x => keyOf x = k) = rest.any (fun x => keyOf x = k) := by
        simp [List.any_cons, hk]
      rw [h1, h2]

theorem insertEvent_key_inv (m : List (LKey × LinkAgg)) (e : EdgeEvent)
    (hm : ∀ p ∈ m, p.1 = linkKey p.2.source p.2.target) :
    ∀ p ∈ insertEvent m e, p.1 = linkKey p.2.source p.2.target := by
  intro p hp
  simp only [insertEvent] at hp
  rcases mem_mapSet hp with h | h
  · exact hm p h
  · subst h
    cases hv : mapGet m (keyOf e) with
    | none => simp [hv, keyOf]
    | some v =>
      have := hm (keyOf e, v) (mapGet_eq_some_mem hv)
      simpa [hv] using this

theorem foldl_insertEvent_key_inv :
    ∀ (active : List EdgeEvent) (m : List (LKey × LinkAgg)),
      (∀ p ∈ m, p.1 = linkKey p.2.source p.2.target) →
      ∀ p ∈ active.foldl insertEvent m, p.1 = linkKey p.2.source p.2.target
  | [], m => fun hm => hm
  | e :: rest, m => fun hm => by
    rw [List.foldl_cons]
    exact foldl_insertEvent_key_inv rest (insertEvent m e) (insertEvent_key_inv m e hm)

theorem foldl_insertEvent_keys_nodup :
    ∀ (active : List EdgeEvent) (m : List (LKey × LinkAgg)),
      (m.map (fun p => p.1)).Nodup →
      ((active.foldl insertEvent m).map (fun p => p.1)).Nodup
  | [], m => fun hm => hm
  | e :: rest, m => fun hm => by
    rw [List.foldl_cons]
    exact foldl_insertEvent_keys_nodup rest (insertEvent m e) (mapSet_keys_nodup _ _ _ hm)

theorem linkKey_none_left (t : Option Int) : linkKey none t = (t, none) := by
  cases t <;> rfl

theorem linkKey_none_right (t : Option Int) : linkKey t none = (none, t) := by
  cases t <;> rfl

theorem linkKey_canonical (a b : Int) (h : a < b) :
    linkKey (some a) (some b) = (some a, some b)
    ∧ linkKey (some b) (some a) = (some a, some b) := by
  have h' : ¬ b < a := not_lt.mpr (le_of_lt h)
  constructor <;> simp [linkKey, jsLt, h, h']

theorem linkKey_eq_pair_iff (a b c d : Int) :
    linkKey (some a) (some b) = linkKey (some c) (some d) ↔
      (a = c ∧ b = d) ∨ (a = d ∧ b = c) := by
  simp only [linkKey, jsLt]
  by_cases h1 : a < b <;> by_cases h2 : c < d <;>
    simp [h1, h2, Prod.ext_iff] <;> omega

/-! ## Lemmas about the degree computation -/

theorem jsOrI_eq_getD (o : Option Int) : jsOrI o 0 = o.getD 0 := by
  cases o with
  | none => rfl
  | some x =>
    by_cases h : x = 0 <;> simp [jsOrI, h]

theorem mapGet_bump_getD (m : List (Option Int × Int)) (k k' : Option Int) (v : Int) :
    (mapGet (bump m k' v) k).getD 0 = (mapGet m k).getD 0 + (if k' = k then v else 0) := by
  by_cases h : k' = k
  · subst h
    simp only [bump]
    rw [mapGet_mapSet_self]
    simp [jsOrI_eq_getD]
  · simp only [bump]
    rw [mapGet_mapSet_ne _ _ _ _ (fun hc => h hc.symm)]
    simp [h]

theorem degMap_step_getD (m : List (Option Int × Int)) (l : LinkAgg) (k : Option Int) :
    (mapGet (bump (bump m l.source l.total) l.target l.total) k).getD 0
      = (mapGet m k).getD 0 + degContrib k l := by
  rw [mapGet_bump_getD, mapGet_bump_getD]
  simp only [degContrib]
  split_ifs <;> omega

theorem degMap_foldl_getD (k : Option Int) :
    ∀ (links : List LinkAgg) (m : List (Option Int × Int)),
      (mapGet (links.foldl (fun m l => bump (bump m l.source l.total) l.target l.total) m) k).getD 0
        = (mapGet m k).getD 0 + (links.map (degContrib k)).sum
  | [], m => by simp
  | l :: rest, m => by
    rw [List.foldl_cons,
      degMap_foldl_getD k rest (bump (bump m l.source l.total) l.target l.total),
      degMap_step_getD]
    simp only [List.map_cons, List.sum_cons]
    omega

theorem nodeDegree_eq_sum (links : List LinkAgg) (p : Option Int) :
    nodeDegree links p = (links.map (degContrib p)).sum := by
  unfold nodeDegree degMap
  rw [jsOrI_eq_getD, degMap_foldl_getD]
  simp [mapGet]

/-! ## Lemmas about hover picking and the demo generator -/

theorem pickGo_eq_none (x y : ℚ) :
    ∀ (l : List NodeRec) (best : Option NodeRec) (bd : ℚ),
      pickGo x y l best bd = none → best = none ∧ ∀ n ∈ l, bd ≤ dist2 x y n
  | [], best, bd => fun h => ⟨h, by simp⟩
  | nd :: rest, best, bd => by
    intro h
    rw [pickGo] at h
    by_cases hc : dist2 x y nd < bd
    · rw [if_pos hc] at h
      obtain ⟨hb, -⟩ := pickGo_eq_none x y rest (some nd) (dist2 x y nd) h
      exact absurd hb (by simp)
    · rw [if_neg hc] at h
      obtain ⟨hb, hall⟩ := pickGo_eq_none x y rest best bd h
      refine ⟨hb, ?_⟩
      intro m hm
      rcases List.mem_cons.mp hm with rfl | hm'
      · exact not_lt.mp hc
      · exact hall m hm'

theorem pickGo_eq_some (x y : ℚ) :
    ∀ (l : List NodeRec) (best : Option NodeRec) (bd : ℚ) (n : NodeRec),
      pickGo x y l best bd = some n →
        (n ∈ l ∧ dist2 x y n < bd ∧ ∀ m ∈ l, dist2 x y n ≤ dist2 x y m)
        ∨ (best = some n ∧ ∀ m ∈ l, bd ≤ dist2 x y m)
  | [], best, bd, n => fun h => Or.inr ⟨h, by simp⟩
  | nd :: rest, best, bd, n => by
    intro h
    rw [pickGo] at h
    by_cases hc : dist2 x y nd < bd
    · rw [if_pos hc] at h
      rcases pickGo_eq_some x y rest (some nd) (dist2 x y nd) n h with
        ⟨hmem, hlt, hmin⟩ | ⟨hb, hall⟩
      · refine Or.inl ⟨List.mem_cons_of_mem _ hmem, hlt.trans hc, ?_⟩
        intro m hm
        rcases List.mem_cons.mp hm with rfl | hm'
        · exact le_of_lt hlt
        · exact hmin m hm'
      · have hnd : nd = n := Option.some.inj hb
        subst hnd
        refine Or.inl ⟨List.mem_cons_self _ _, hc, ?_⟩
        intro m hm
        rcases List.mem_cons.mp hm with rfl | hm'
        · exact le_refl _
        · exact hall m hm'
    · rw [if_neg hc] at h
      rcases pickGo_eq_some x y rest best bd n h with ⟨hmem, hlt, hmin⟩ | ⟨hb, hall⟩
      · refine Or.inl ⟨List.mem_cons_of_mem _ hmem, hlt, ?_⟩
        intro m hm
        rcases List.mem_cons.mp hm with rfl | hm'
        · exact hlt.le.trans (not_lt.mp hc)
        · exact hmin m hm'
      · refine Or.inr ⟨hb, ?_⟩
        intro m hm
        rcases List.mem_cons.mp hm with rfl | hm'
        · exact not_lt.mp hc
        · exact hall m hm'

theorem drawFloor_bounds (r : ℚ) (n : ℕ) (h0 : 0 ≤ r) (h1 : r < 1) (hn : 0 < n) :
    0 ≤ drawFloor r n ∧ drawFloor r n < n := by
  unfold drawFloor
  constructor
  · exact Int.floor_nonneg.mpr (mul_nonneg h0 (by positivity))
  · rw [Int.floor_lt]
    push_cast
    calc r * (n : ℚ) < 1 * (n : ℚ) := by
          exact mul_lt_mul_of_pos_right h1 (by exact_mod_cast hn)
    _ = (n : ℚ) := one_mul _

/-! ## The claims -/

/-- C1: for every active event set, aggregation produces exactly one link
per unordered pair of person ids — the key is canonicalized with the
smaller id first, the two orientations share one key, and the link's total
is the sum of `e.weight || 1` over every event with that key; the worked
example source=3,target=7,weight=2 together with source=7,target=3,weight=5
yields the single link (3, 7) with total 7. -/
theorem link_aggregation_unordered_pair :
    (∀ active : List EdgeEvent,
        (buildLinks active).Pairwise
          (fun l₁ l₂ => linkKey l₁.source l₁.target ≠ linkKey l₂.source l₂.target))
    ∧ (∀ (active : List EdgeEvent), ∀ l ∈ buildLinks active,
        l.total = keyTotal (linkKey l.source l.target) active)
    ∧ (∀ (active : List EdgeEvent), ∀ e ∈ active,
        ∃ l ∈ buildLinks active, linkKey l.source l.target = keyOf e)
    ∧ (∀ a b : Int, a < b →
        linkKey (some a) (some b) = (some a, some b)
        ∧ linkKey (some b) (some a) = (some a, some b))
    ∧ (∀ a b c d : Int,
        linkKey (some a) (some b) = linkKey (some c) (some d) ↔
          (a = c ∧ b = d) ∨ (a = d ∧ b = c))
    ∧ (buildLinks [ev37, ev73]).map (fun l => (l.source, l.target, l.total))
        = [(some 3, some 7, 7)] := by
  have hnd : ∀ active : List EdgeEvent,
      (((active.foldl insertEvent []).map (fun p => p.1)).Nodup) := fun active =>
    foldl_insertEvent_keys_nodup active [] (by simp)
  have hinv : ∀ (active : List EdgeEvent), ∀ p ∈ active.foldl insertEvent [],
      p.1 = linkKey p.2.source p.2.target := fun active =>
    foldl_insertEvent_key_inv active [] (by simp)
  refine ⟨?_, ?_, ?_, linkKey_canonical, linkKey_eq_pair_iff, by decide⟩
  · intro active
    have h1 : (List.foldl insertEvent [] active).Pairwise (fun p q => p.1 ≠ q.1) := by
      have h0 : ((List.foldl insertEvent [] active).map (fun p => p.1)).Pairwise (· ≠ ·) :=
        hnd active
      rwa [List.pairwise_map] at h0
    have h2 : (active.foldl insertEvent []).Pairwise
        (fun p q => linkKey p.2.source p.2.target ≠ linkKey q.2.source q.2.target) := by
      refine h1.imp_of_mem (fun hp hq hne => ?_)
      rw [← hinv active _ hp, ← hinv active _ hq]
      exact hne
    rw [buildLinks, List.pairwise_map]
    exact h2
  · intro active l hl
    obtain ⟨p, hp, hpl⟩ := List.mem_map.mp hl
    have hkey : p.1 = linkKey l.source l.target := by
      rw [← hpl]
      exact hinv active p hp
    have hget : mapGet (active.foldl insertEvent []) p.1 = some l := by
      apply mapGet_of_mem_nodup (hnd active)
      have : p = (p.1, l) := by
        rw [← hpl]
      rw [← this]
      exact hp
    have htot := foldl_insertEvent_total p.1 active []
    rw [hget] at htot
    simp only [mapGet, List.find?_nil, Option.map_none', Option.elim] at htot
    by_cases hany : active.any (fun e => keyOf e = p.1) = true
    · rw [if_pos hany] at htot
      have := Option.some.inj htot
      rw [hkey] at this
      exact this
    · rw [if_neg hany] at htot
      exact absurd htot (by simp)
  · intro active e he
    have hany : active.any (fun x => keyOf x = keyOf e) = true :=
      List.any_eq_true.mpr ⟨e, he, by simp⟩
    have htot := foldl_insertEvent_total (keyOf e) active []
    have hbase : mapGet ([] : List (LKey × LinkAgg)) (keyOf e) = none := rfl
    rw [hbase] at htot
    simp only [Option.map_none', Option.elim, hany, if_pos] at htot
    obtain ⟨v, hv⟩ : ∃ v, mapGet (active.foldl insertEvent []) (keyOf e) = some v := by
      cases h : mapGet (active.foldl insertEvent []) (keyOf e) with
      | none => rw [h] at htot; simp at htot
      | some v => exact ⟨v, rfl⟩
    refine ⟨v, List.mem_map.mpr ⟨(keyOf e, v), mapGet_eq_some_mem hv, rfl⟩, ?_⟩
    exact (hinv active (keyOf e, v) (mapGet_eq_some_mem hv)).symm

/-- C2: a person's computed degree is the per-endpoint sum of link totals —
each link credits its full `total` to its source slot and to its target
slot; for links with distinct endpoints this is the sum of `total` over the
incident links, a person touched by no link gets 0, and the worked example
link (3, 7, total=7) gives persons 3 and 7 degree 7 each and person 5
degree 0. -/
theorem degree_sums_incident_totals :
    (∀ (links : List LinkAgg) (p : Option Int),
        nodeDegree links p = (links.map (degContrib p)).sum)
    ∧ (∀ (links : List LinkAgg) (p : Option Int),
        (∀ l ∈ links, l.source ≠ l.target) →
        nodeDegree links p
          = ((links.filter (fun l => l.source = p ∨ l.target = p)).map LinkAgg.total).sum)
    ∧ (∀ (links : List LinkAgg) (p : Option Int),
        (∀ l ∈ links, l.source ≠ p ∧ l.target ≠ p) → nodeDegree links p = 0)
    ∧ (∀ (nodes : List NodeRec) (links : List LinkAgg) (n : NodeRec),
        n ∈ nodes → { n with degree := nodeDegree links n.id } ∈ nodesWithDeg nodes links)
    ∧ nodeDegree [link37] (some 3) = 7
    ∧ nodeDegree [link37] (some 7) = 7
    ∧ nodeDegree [link37] (some 5) = 0 := by
  refine ⟨nodeDegree_eq_sum, ?_, ?_, ?_, by decide, by decide, by decide⟩
  · intro links p h
    rw [nodeDegree_eq_sum]
    induction links with
    | nil => simp
    | cons l rest ih =>
      have hl := h l (List.mem_cons_self l rest)
      have hrest := ih (fun l' hl' => h l' (List.mem_cons_of_mem l hl'))
      by_cases hs : l.source = p
      · have ht : ¬ l.target = p := fun hc => hl (hs.trans hc.symm)
        simp [degContrib, hs, ht, hrest]
      · by_cases ht : l.target = p
        · simp [degContrib, hs, ht, hrest]
        · simp [degContrib, hs, ht, hrest]
  · intro links p h
    rw [nodeDegree_eq_sum]
    apply List.sum_eq_zero
    intro x hx
    obtain ⟨l, hl, hlx⟩ := List.mem_map.mp hx
    rw [← hlx]
    simp [degContrib, (h l hl).1, (h l hl).2]
  · intro nodes links n hn
    exact List.mem_map.mpr ⟨n, hn, rfl⟩

/-- C3: in accumulate mode the active set holds exactly the month-filtered
events with day-of-month ≤ the cutoff, in single-day mode exactly those
with day-of-month = the cutoff; for events on days 1, 5, 10 with cutoff 5,
accumulate yields the days-1-and-5 events and single-day only the day-5
event. -/
theorem active_window_day_filter :
    (∀ (edges : List EdgeEvent) (cutoff : Nat) (e : EdgeEvent),
        (e ∈ activeEdges edges cutoff true ↔ e ∈ edges ∧ e.timestamp.day ≤ cutoff)
        ∧ (e ∈ activeEdges edges cutoff false ↔ e ∈ edges ∧ e.timestamp.day = cutoff))
    ∧ (activeEdges [exDay 1, exDay 5, exDay 10] 5 true).map (fun e => e.timestamp.day) = [1, 5]
    ∧ (activeEdges [exDay 1, exDay 5, exDay 10] 5 false).map (fun e => e.timestamp.day) = [5] := by
  refine ⟨?_, by decide, by decide⟩
  intro edges cutoff e
  constructor <;> simp [activeEdges, List.mem_filter]

/-- C4: an event is in the month-filtered set iff its timestamp's
`fmtMonth` label (year, hyphen, 2-digit zero-padded 1-based month) equals
the month key exactly; an event at 2025-09-01 (month index 8) carries label
"2025-09" and matches no other key. -/
theorem month_filter_matches_label :
    (∀ (edges : List EdgeEvent) (M : String) (e : EdgeEvent),
        e ∈ monthFiltered edges M ↔ e ∈ edges ∧ fmtMonth e.timestamp = M)
    ∧ (∀ (n : List RawNode) (ed : List RawEdge) (M : String),
        (mkParsed n ed M).edges = monthFiltered (ed.map normEdge) M)
    ∧ fmtMonth ⟨2025, 8, 1⟩ = "2025-09"
    ∧ (∀ M : String, fmtMonth ⟨2025, 8, 1⟩ = M ↔ M = "2025-09") := by
  refine ⟨?_, fun n ed M => rfl, by decide, ?_⟩
  · intro edges M e
    simp [monthFiltered, List.mem_filter]
  · intro M
    have h : fmtMonth ⟨2025, 8, 1⟩ = "2025-09" := by decide
    rw [h]
    exact eq_comm

/-- C5: during aggregation, an event with an absent or zero weight (and any
raw weight that is non-finite, hence absent after `toNum`) contributes
exactly 1 to its link's total, a nonzero weight contributes itself, and one
insertion adds exactly this contribution to the event's key; the worked
example event with weight 0 yields a link with total 1. -/
theorem weight_default_contribution :
    contribution none = 1
    ∧ contribution (some 0) = 1
    ∧ (∀ w : Int, w ≠ 0 → contribution (some w) = w)
    ∧ (∀ x : JSNum, x.isFinite = false → contribution (toNum x) = 1)
    ∧ (∀ (m : List (LKey × LinkAgg)) (e : EdgeEvent),
        (mapGet (insertEvent m e) (keyOf e)).map LinkAgg.total
          = some (((mapGet m (keyOf e)).map LinkAgg.total).getD 0 + contribution e.weight))
    ∧ (buildLinks [evW0]).map (fun l => l.total) = [1] := by
  refine ⟨rfl, rfl, ?_, ?_, mapGet_insertEvent_self, by decide⟩
  · intro w h
    simp [contribution, jsOrI, h]
  · intro x h
    cases x <;> simp_all [toNum, contribution, jsOrI, JSNum.isFinite]

/-- C6: `toNum` maps every non-finite coercion result to the absent value
and never defaults it to a number, normalization propagates `toNum` to
every numeric field, a link key holding an absent id differs from every
real-pair key (so a malformed row never merges into a real pair's link),
and a person id matched by no link endpoint accumulates no degree. -/
theorem malformed_numeric_absent :
    (∀ x : JSNum, x.isFinite = false → toNum x = none)
    ∧ (∀ (x : JSNum) (n : Int), toNum x = some n → x = JSNum.finite n)
    ∧ (∀ d : RawNode, (normNode d).id = toNum d.id)
    ∧ (∀ d : RawEdge,
        (normEdge d).event_id = toNum d.event_id
        ∧ (normEdge d).source = toNum d.source
        ∧ (normEdge d).target = toNum d.target
        ∧ (normEdge d).duration_minutes = toNum d.duration_minutes
        ∧ (normEdge d).weight = toNum d.weight)
    ∧ (∀ (t : Option Int) (a b : Int),
        linkKey none t ≠ linkKey (some a) (some b)
        ∧ linkKey t none ≠ linkKey (some a) (some b))
    ∧ (∀ (links : List LinkAgg) (i : Int),
        (∀ l ∈ links, l.source ≠ some i ∧ l.target ≠ some i) →
        nodeDegree links (some i) = 0) := by
  refine ⟨?_, ?_, fun d => rfl, fun d => ⟨rfl, rfl, rfl, rfl, rfl⟩, ?_, ?_⟩
  · intro x h
    cases x <;> simp_all [toNum, JSNum.isFinite]
  · intro x n h
    cases x <;> simp_all [toNum, JSNum.isFinite]
  · intro t a b
    rw [linkKey_none_left, linkKey_none_right]
    constructor <;> simp [linkKey, jsLt] <;> split_ifs <;> simp [Prod.ext_iff]
  · intro links i h
    rw [nodeDegree_eq_sum]
    apply List.sum_eq_zero
    intro x hx
    obtain ⟨l, hl, hlx⟩ := List.mem_map.mp hx
    rw [← hlx]
    simp [degContrib, (h l hl).1, (h l hl).2]

/-- C7: with parsed data present, a playback tick advances the day by 1 and
wraps to 1 as soon as the incremented day exceeds `parsed.days` (the
days-in-month figure, which `daysOf` floors at 30, hence is never the falsy
0); a tick starting at day = days lands on 1, never days + 1. -/
theorem playback_tick_wraps :
    (∀ (p : Parsed) (dim d : Nat), p.days ≠ 0 →
        tickDay (some p) dim d = if d + 1 > p.days then 1 else d + 1)
    ∧ (∀ (p : Parsed) (dim : Nat), p.days ≠ 0 → tickDay (some p) dim p.days = 1)
    ∧ (∀ filtered : List EdgeEvent, 30 ≤ daysOf filtered)
    ∧ tickDay (some ⟨[], [], 30⟩) 7 30 = 1
    ∧ tickDay (some ⟨[], [], 30⟩) 7 12 = 13 := by
  have hstep : ∀ (p : Parsed) (dim d : Nat), p.days ≠ 0 →
      tickDay (some p) dim d = if d + 1 > p.days then 1 else d + 1 := by
    intro p dim d h
    simp [tickDay, jsOrNat, h]
  refine ⟨hstep, ?_, ?_, by decide, by decide⟩
  · intro p dim h
    rw [hstep p dim p.days h]
    simp
  · intro filtered
    exact Nat.le_max_right _ _

/-- C8: hover picking selects a node iff its squared straight-line distance
to the pointer is strictly under 400 (= 20²) and then one of minimal
distance, with no dependence on node size; a node at distance 19 is picked,
nodes at distance 20 or 21 are not. -/
theorem hover_pick_radius :
    (∀ (x y : ℚ) (nodes : List NodeRec),
        pickNode x y nodes = none ↔ ∀ n ∈ nodes, 400 ≤ dist2 x y n)
    ∧ (∀ (x y : ℚ) (nodes : List NodeRec) (n : NodeRec),
        pickNode x y nodes = some n →
          n ∈ nodes ∧ dist2 x y n < 400 ∧ ∀ m ∈ nodes, dist2 x y n ≤ dist2 x y m)
    ∧ dist2 0 0 (nodeAt 19) = 361
    ∧ pickNode 0 0 [nodeAt 19] = some (nodeAt 19)
    ∧ dist2 0 0 (nodeAt 21) = 441
    ∧ pickNode 0 0 [nodeAt 21] = none
    ∧ pickNode 0 0 [nodeAt 20] = none := by
  have hsome : ∀ (x y : ℚ) (nodes : List NodeRec) (n : NodeRec),
      pickNode x y nodes = some n →
        n ∈ nodes ∧ dist2 x y n < 400 ∧ ∀ m ∈ nodes, dist2 x y n ≤ dist2 x y m := by
    intro x y nodes n h
    unfold pickNode at h
    by_cases he : nodes.isEmpty = true
    · rw [if_pos he] at h
      exact absurd h (by simp)
    · rw [if_neg he] at h
      rcases pickGo_eq_some x y nodes none 400 n h with hgood | ⟨hb, _⟩
      · exact hgood
      · exact absurd hb (by simp)
  have hnone : ∀ (x y : ℚ) (nodes : List NodeRec),
      pickNode x y nodes = none ↔ ∀ n ∈ nodes, 400 ≤ dist2 x y n := by
    intro x y nodes
    constructor
    · intro h n hn
      unfold pickNode at h
      by_cases he : nodes.isEmpty = true
      · rw [List.isEmpty_iff] at he
        subst he
        simp at hn
      · rw [if_neg he] at h
        exact (pickGo_eq_none x y nodes none 400 h).2 n hn
    · intro hall
      cases h : pickNode x y nodes with
      | none => rfl
      | some n =>
        obtain ⟨hn, hlt, -⟩ := hsome x y nodes n h
        exact absurd (hall n hn) (not_le.mpr hlt)
  refine ⟨hnone, hsome, by norm_num [dist2, nodeAt], ?_, by norm_num [dist2, nodeAt], ?_, ?_⟩
  · norm_num [pickNode, pickGo, dist2, nodeAt]
  · norm_num [pickNode, pickGo, dist2, nodeAt]
  · norm_num [pickNode, pickGo, dist2, nodeAt]

/-- C9: every demo-generated event has target ≠ source: both start as
uniform draws giving ids in [1, 100], and on a collision the remap
`(target mod 100) + 1` lands back in [1, 100] on a different id; the
all-zero draw stream collides (source 1, target drawn 1) and is remapped to
target 2. -/
theorem demo_no_self_loop :
    (∀ rnd : ℕ → ℚ, (∀ i, 0 ≤ rnd i ∧ rnd i < 1) →
        (demoEdges rnd).length = 1200
        ∧ ∀ ed ∈ demoEdges rnd,
            ed.target ≠ ed.source
            ∧ 1 ≤ ed.source ∧ ed.source ≤ 100
            ∧ 1 ≤ ed.target ∧ ed.target ≤ 100)
    ∧ (demoEdge (fun _ => 0) 0).source = 1
    ∧ (demoEdge (fun _ => 0) 0).target = 2 := by
  refine ⟨?_, by norm_num [demoEdge, drawFloor], by norm_num [demoEdge, drawFloor]⟩
  intro rnd h
  refine ⟨by simp [demoEdges], ?_⟩
  intro ed hed
  obtain ⟨k, hk, hdk⟩ := List.mem_map.mp hed
  obtain ⟨ha0, ha1⟩ := drawFloor_bounds (rnd (8 * k)) 100 (h _).1 (h _).2 (by norm_num)
  obtain ⟨hb0, hb1⟩ := drawFloor_bounds (rnd (8 * k + 1)) 100 (h _).1 (h _).2 (by norm_num)
  rw [← hdk]
  have ha1' : drawFloor (rnd (8 * k)) 100 < 100 := by exact_mod_cast ha1
  have hb1' : drawFloor (rnd (8 * k + 1)) 100 < 100 := by exact_mod_cast hb1
  simp only [demoEdge]
  refine ⟨?_, by omega, by omega, ?_, ?_⟩ <;> split_ifs <;> omega

/-- C10: with no parsed dataset, a playback tick returns the current day
unchanged — playback stalls instead of advancing against the fallback
days-in-month value. -/
theorem tick_without_parsed_stalls :
    ∀ (daysInMonth d : Nat), tickDay none daysInMonth d = d :=
  fun _ _ => rfl

end CoworkerGraph
